import Mathlib

/-!
# birdactivity: the per-account synchronisation pipeline

A shallow embedding of `cmd/birdactivity/main.go` (`textCleanup`, `doAccount`),
`account.go` and `cache.go`, followed by theorems about the replay loop, the
text normalisation and the truncation.

Conventions of the embedding:

* A Go `string` holding text is a Lean `String` where the code works on runes
  (`strings.TrimSpace`, `regexp`), and a `List UInt8` where it works on bytes
  (`len`, slicing). `utf8` goes from the first view to the second.
* The outside world (the Mastodon server, the HTML sanitiser) is a parameter:
  `Env` gives the outcome of every `doAuth` and `PostStatus` call as a function
  of the calls made so far, `san` is bluemonday's `Sanitize` under the policy
  built in `textCleanup`.
* Every call that reaches the outside world is recorded in a trace of `Event`s.
-/

namespace BirdActivity

/-! ## Go library functions used by the pipeline -/

/-- The bytes of a text: Go strings are UTF-8 byte sequences, and `len` and
slice expressions count bytes. -/
def utf8 (s : String) : List UInt8 :=
  s.data.flatMap String.utf8EncodeChar

/-- Go `unicode.IsSpace`: in Latin-1 the characters `\t \n \v \f \r`, space,
U+0085 and U+00A0; above Latin-1 the Unicode property `White_Space`. -/
def unicodeIsSpace (c : Char) : Bool :=
  let n := c.toNat
  (0x09 ≤ n && n ≤ 0x0D) || n == 0x20 || n == 0x85 || n == 0xA0 || n == 0x1680 ||
  (0x2000 ≤ n && n ≤ 0x200A) || n == 0x2028 || n == 0x2029 || n == 0x202F ||
  n == 0x205F || n == 0x3000

/-- Go `strings.TrimSpace`: the text without its leading and trailing white
space, as defined by `unicode.IsSpace`. -/
def TrimSpace (s : String) : String :=
  ⟨(s.data.dropWhile unicodeIsSpace).rdropWhile unicodeIsSpace⟩

/-- The class `\s` of Go's `regexp` (RE2 syntax): exactly `[\t\n\f\r ]`. -/
def reSpace (c : Char) : Bool :=
  c == '\t' || c == '\n' || c == '\x0c' || c == '\r' || c == ' '

/-- The pieces a pattern of this program is made of: a literal character, an
optional literal character `c?`, and the greedy repetitions `[class]+` and
`[class]*` of a character class. -/
inductive Atom where
  | lit (c : Char)
  | opt (c : Char)
  | plus (cls : Char → Bool)
  | star (cls : Char → Bool)

/-- Greedy repetition with backtracking: try to let the repetition take `k`
characters of `s`, then `k - 1`, down to `lo`, and keep the first length
at which the rest of the pattern `cont` matches what follows. -/
def backoff {R : Type} (cont : List Char → Option R) (s : List Char) (lo : Nat) :
    Nat → Option (List Char × R)
  | 0 => if lo = 0 then (cont s).map (fun r => ([], r)) else none
  | k + 1 =>
    if k + 1 < lo then none
    else
      match cont (s.drop (k + 1)) with
      | some r => some (s.take (k + 1), r)
      | none => backoff cont s lo k

/-- Match a sequence of atoms at the very start of `s`, the way a backtracking
engine does (Go's `regexp` returns the match such an engine finds first). The
result is the text taken by each atom, and the text left after the match. -/
def matchHere : List Atom → List Char → Option (List (List Char) × List Char)
  | [], s => some ([], s)
  | .lit c :: as, s =>
    match s with
    | x :: xs => if x = c then (matchHere as xs).map (fun r => ([c] :: r.1, r.2)) else none
    | [] => none
  | .opt c :: as, s =>
    let skip := (matchHere as s).map (fun r => ([] :: r.1, r.2))
    match s with
    | x :: xs =>
      if x = c then
        match matchHere as xs with
        | some r => some ([c] :: r.1, r.2)
        | none => skip
      else skip
    | [] => skip
  | .plus cls :: as, s =>
    (backoff (matchHere as) s 1 (s.takeWhile cls).length).map (fun r => (r.1 :: r.2.1, r.2.2))
  | .star cls :: as, s =>
    (backoff (matchHere as) s 0 (s.takeWhile cls).length).map (fun r => (r.1 :: r.2.1, r.2.2))

/-- A pattern: a sequence of parts, each a run of atoms that is either plain
or a capture group `( ... )`. Groups are numbered from 1 in order. -/
structure Part where
  capture : Bool
  atoms : List Atom

/-- The literal characters of `s` as atoms. -/
def lits (s : String) : List Atom :=
  s.data.map Atom.lit

/-- Cut the per-atom texts of a match into the per-part texts. -/
def regroup : List Part → List (List Char) → List (Bool × List Char)
  | [], _ => []
  | p :: ps, segs =>
    (p.capture, (segs.take p.atoms.length).flatten) :: regroup ps (segs.drop p.atoms.length)

/-- A match of a pattern at the start of `s`: the whole matched text, the
texts of the capture groups in order, and the rest of `s`. -/
structure Match where
  whole : List Char
  groups : List (List Char)
  rest : List Char
  deriving DecidableEq, Repr

/-- Match a pattern at the very start of `s`. -/
def matchAt (re : List Part) (s : List Char) : Option Match :=
  (matchHere (re.flatMap Part.atoms) s).map fun r =>
    { whole := r.1.flatten
      groups := ((regroup re r.1).filter (fun p => p.1)).map (fun p => p.2)
      rest := r.2 }

/-- A piece of a replacement template: literal text or `$n`. -/
inductive Repl where
  | text (s : String)
  | group (n : Nat)

/-- Go `Regexp.Expand` for a parsed template: `$n` is the text of group `n`
(empty when there is no such group). -/
def expand (tpl : List Repl) (m : Match) : List Char :=
  tpl.flatMap fun
    | .text s => s.data
    | .group n => (m.groups.get? (n - 1)).getD []

/-- The loop of Go `Regexp.ReplaceAllString`: look for the leftmost match from
the current position, copy the text before it, write the expanded template,
and go on after the match. `fuel` bounds the number of rounds, each of which
moves at least one character forward; a match of the empty text is treated as
no match at that position (the two patterns of this program take at least one
character). -/
def replaceAll (re : List Part) (tpl : List Repl) : Nat → List Char → List Char
  | 0, s => s
  | _, [] => []
  | fuel + 1, c :: cs =>
    match matchAt re (c :: cs) with
    | some m =>
      if m.whole = [] then c :: replaceAll re tpl fuel cs
      else expand tpl m ++ replaceAll re tpl fuel m.rest
    | none => c :: replaceAll re tpl fuel cs

/-- Go `Regexp.ReplaceAllString(src, repl)`. -/
def ReplaceAllString (re : List Part) (src : String) (tpl : List Repl) : String :=
  ⟨replaceAll re tpl src.length src.data⟩

/-! ## `main.go`: text normalisation -/

/-- The constant `maxActivityPostLength` (main.go:21). -/
def maxActivityPostLength : Nat := 450

/-- The pattern `<a href="(https?://[^\s]+)">([^<]*)</a>` of `textCleanup`
(main.go:93). -/
def linkRe : List Part :=
  [ ⟨false, lits "<a href=\""⟩,
    ⟨true, lits "http" ++ [.opt 's'] ++ lits "://" ++ [.plus (fun c => !reSpace c)]⟩,
    ⟨false, lits "\">"⟩,
    ⟨true, [.star (fun c => c != '<')]⟩,
    ⟨false, lits "</a>"⟩ ]

/-- The template `$1 - $2` of `textCleanup` (main.go:94). -/
def linkTpl : List Repl :=
  [.group 1, .text " - ", .group 2]

/-- The link-rewriting step of `textCleanup` (main.go:92-94), applied to the
sanitised text. -/
def rewriteLinks (out : String) : String :=
  ReplaceAllString linkRe out linkTpl

/-- The function `textCleanup` (main.go:85-97). `san` is `p.Sanitize` for the
bluemonday policy built on lines 86-89. -/
def textCleanup (san : String → String) (inp : String) : String :=
  rewriteLinks (san inp)

/-- The pattern `\s+` of `doAccount` (main.go:181). -/
def spaceRe : List Part :=
  [⟨false, [.plus reSpace]⟩]

/-- The whitespace step of `doAccount` (main.go:179-182): `strings.TrimSpace`,
then every match of `\s+` replaced by one space. -/
def collapseSpace (txt : String) : String :=
  ReplaceAllString spaceRe (TrimSpace txt) [.text " "]

/-- The truncation step of `doAccount` (main.go:184-187), on the bytes of the
text: `if len(txt) > maxActivityPostLength { txt = txt[0:max-4] + "..." }`. -/
def limitLength (txt : List UInt8) : List UInt8 :=
  if txt.length > maxActivityPostLength then
    txt.take (maxActivityPostLength - 4) ++ utf8 "..."
  else txt

/-- Lines 176-187 of `doAccount`: the text selected from the item is cleaned,
its whitespace collapsed and its length limited. The result is the status
text handed to `PostStatus`. -/
def normalise (san : String → String) (txt : String) : List UInt8 :=
  limitLength (utf8 (collapseSpace (textCleanup san txt)))

/-! ## `account.go`, `cache.go`: the data model -/

/-- The struct `Account` (account.go:4-11). -/
structure Account where
  Name : String
  Active : Bool
  FeedURL : String
  PostField : String
  MstdnUser : String
  MstdnPass : String
  deriving DecidableEq, Repr

/-- The fields of a `gofeed.Item` that `doAccount` reads. -/
structure Item where
  GUID : String
  Title : String
  Content : String
  deriving DecidableEq, Repr

/-- The struct `Cache` (cache.go:12-14): `GUIDs` is a Go `map[string]bool`,
kept here as the list of its entries, one per key. -/
structure Cache where
  GUIDs : List (String × Bool)
  deriving DecidableEq, Repr

/-- The function `newCache` (cache.go:17-21): an empty map. -/
def newCache : Cache := ⟨[]⟩

/-- The test `_, ok := cache.GUIDs[guid]` (main.go:150): is the key present,
whatever its value. -/
def Cache.has (c : Cache) (guid : String) : Bool :=
  c.GUIDs.any (fun e => e.1 == guid)

/-- The assignment `cache.GUIDs[guid] = v` (main.go:219): the entry of the key
is replaced, or added when there was none. -/
def Cache.set (c : Cache) (guid : String) (v : Bool) : Cache :=
  ⟨(guid, v) :: c.GUIDs.filter (fun e => e.1 != guid)⟩

/-! ## `main.go`: the replay loop of `doAccount` -/

/-- The error built on main.go:172. -/
inductive ConfigError where
  | invalidPostfield (name postfield : String)
  deriving DecidableEq, Repr

/-- The `switch acct.PostField` of `doAccount` (main.go:156-174): the text of
the item that is to be posted, or the error of the `default` case. -/
def postText (acct : Account) (itm : Item) : Except ConfigError String :=
  let txt := itm.Title
  if acct.PostField = "title" ∨ acct.PostField = "" then .ok txt
  else if acct.PostField = "content" then .ok itm.Content
  else if acct.PostField = "titlecontent" then .ok (itm.Title ++ " " ++ itm.Content)
  else .error (.invalidPostfield acct.Name acct.PostField)

/-- A call that leaves the process, with its outcome: `doAuth` (main.go:201),
`mc.PostStatus` (main.go:209) for the item `guid` with the status text, and
`saveCache` (main.go:225). -/
inductive Event where
  | auth (ok : Bool)
  | post (guid : String) (status : List UInt8) (ok : Bool)
  | save (cache : Cache)
  deriving DecidableEq, Repr

/-- The Mastodon server as seen by one run: whether the next `doAuth` call,
and the next `PostStatus` call with a given status, succeed, depending on the
calls made before it. -/
structure Env where
  doAuth : List Event → Bool
  PostStatus : List Event → List UInt8 → Bool

/-- The variables of `doAccount` that live across iterations of the loop
(`authed`, `cache`), with the trace of calls made so far (oldest first). -/
structure LoopState where
  authed : Bool
  cache : Cache
  trace : List Event
  deriving DecidableEq, Repr

/-- What a run of `doAccount` leaves behind: the in-memory cache, the calls it
made, and the value of `err` when it returned from inside the loop. -/
structure Run where
  cache : Cache
  trace : List Event
  err : Option ConfigError
  deriving DecidableEq, Repr

/-- Lines 197-206 of `doAccount`: `if !authed { mc, err = doAuth(cfg, acct) }`.
The flag tells whether the iteration goes on to post (`false`: the `continue`
of line 204). No line of `doAccount` assigns `authed` after line 109. -/
def authenticate (env : Env) (st : LoopState) : LoopState × Bool :=
  if !st.authed then
    let ok := env.doAuth st.trace
    ({ st with trace := st.trace ++ [.auth ok] }, ok)
  else (st, true)

/-- Lines 208-219 of `doAccount`: the status is posted, and the GUID is stored
in the cache when the call succeeded. -/
def postItem (env : Env) (itm : Item) (txt : List UInt8) (st : LoopState) : LoopState :=
  let ok := env.PostStatus st.trace txt
  let st := { st with trace := st.trace ++ [.post itm.GUID txt ok] }
  if !ok then st
  else { st with cache := st.cache.set itm.GUID true }

/-- One iteration of the loop of `doAccount` (main.go:147-219) for the item
`itm`. The result is the state for the next iteration, or, with an error, the
state at the `return` of line 173. -/
def visit (env : Env) (san : String → String) (noop : Bool) (acct : Account)
    (st : LoopState) (itm : Item) : LoopState × Option ConfigError :=
  if st.cache.has itm.GUID then (st, none)
  else
    match postText acct itm with
    | .error e => (st, some e)
    | .ok txt =>
      let txt := normalise san txt
      if noop then (st, none)
      else
        match authenticate env st with
        | (st, false) => (st, none)
        | (st, true) => (postItem env itm txt st, none)

/-- The loop of `doAccount` (main.go:146-220) over the items still to be
visited, in visiting order. -/
def replay (env : Env) (san : String → String) (noop : Bool) (acct : Account) :
    List Item → LoopState → LoopState × Option ConfigError
  | [], st => (st, none)
  | itm :: rest, st =>
    match visit env san noop acct st itm with
    | (st, none) => replay env san noop acct rest st
    | (st, some e) => (st, some e)

/-- The function `doAccount` (main.go:107-229) from line 145 on, given the
cache returned by `loadCache` and the items returned by the feed parser (both
calls succeeded, otherwise `log.Fatal` ends the process before the loop):
the items are visited from the last to the first, and the cache is saved
after the loop unless `noop` is set. -/
def doAccount (env : Env) (san : String → String) (noop : Bool) (acct : Account)
    (cache : Cache) (items : List Item) : Run :=
  match replay env san noop acct items.reverse ⟨false, cache, []⟩ with
  | (st, some e) => ⟨st.cache, st.trace, some e⟩
  | (st, none) =>
    if !noop then ⟨st.cache, st.trace ++ [.save st.cache], none⟩
    else ⟨st.cache, st.trace, none⟩

/-! ## Reading a trace -/

/-- The number of `doAuth` calls of a trace. -/
def authCalls (tr : List Event) : Nat :=
  (tr.filter fun | .auth _ => true | _ => false).length

/-- The status texts of the `PostStatus` calls of a trace, in call order. -/
def postCalls : List Event → List (List UInt8)
  | [] => []
  | .post _ s _ :: tr => s :: postCalls tr
  | _ :: tr => postCalls tr

/-- The items (by GUID) for which `PostStatus` was called, in call order. -/
def attempted : List Event → List String
  | [] => []
  | .post g _ _ :: tr => g :: attempted tr
  | _ :: tr => attempted tr

/-- The items (by GUID) whose `PostStatus` call succeeded, in call order. -/
def succeeded : List Event → List String
  | [] => []
  | .post g _ true :: tr => g :: succeeded tr
  | _ :: tr => succeeded tr

/-- The items (by GUID) whose `PostStatus` call failed, in call order. -/
def failed : List Event → List String
  | [] => []
  | .post g _ false :: tr => g :: failed tr
  | _ :: tr => failed tr

/-- The caches handed to `saveCache`, in call order. -/
def saved : List Event → List Cache
  | [] => []
  | .save c :: tr => c :: saved tr
  | _ :: tr => saved tr

/-! ## Vocabulary of the statements -/

/-- A server on which every `doAuth` and every `PostStatus` call succeeds. -/
def okEnv : Env :=
  ⟨fun _ => true, fun _ _ => true⟩

/-- A server on which every call succeeds but the post of the status "B". -/
def failB : Env :=
  ⟨fun _ => true, fun _ txt => txt != utf8 "B"⟩

/-- A sanitiser for texts that hold no markup: there is nothing to strip. -/
def plainSan : String → String :=
  fun s => s

/-- The values of `PostField` that the `switch` of `doAccount` accepts. -/
def validPostField (pf : String) : Prop :=
  pf = "" ∨ pf = "title" ∨ pf = "content" ∨ pf = "titlecontent"

instance (pf : String) : Decidable (validPostField pf) := by
  unfold validPostField; infer_instance

/-- Every `doAuth` call succeeds. -/
def Env.authOk (env : Env) : Prop :=
  ∀ tr, env.doAuth tr = true

/-- Every `PostStatus` call succeeds. -/
def Env.postOk (env : Env) : Prop :=
  ∀ tr txt, env.PostStatus tr txt = true

/-- The items of a feed whose GUID is not in the cache. -/
def unseen (cache : Cache) (items : List Item) : List Item :=
  items.filter (fun itm => !cache.has itm.GUID)

/-- The status text that `doAccount` posts for an item: the selected text,
normalised; none when the selector is invalid. -/
def statusOf (san : String → String) (acct : Account) (itm : Item) : Option (List UInt8) :=
  match postText acct itm with
  | .ok txt => some (normalise san txt)
  | .error _ => none

/-- How the calls `tr` made by the loop over the items `l` (in visiting
order), started with the cache `c`, relate to the cache `c2` it ends with. -/
structure Replayed (env : Env) (san : String → String) (acct : Account)
    (c : Cache) (l : List Item) (tr : List Event) (c2 : Cache) : Prop where
  has_iff : ∀ g, c2.has g = (c.has g || decide (g ∈ succeeded tr))
  auth_count : authCalls tr = (attempted tr).length
  no_save : saved tr = []
  fresh : ∀ g ∈ attempted tr, c.has g = false
  tried : (l.map Item.GUID).Nodup → attempted tr = (unseen c l).map Item.GUID
  texts : (l.map Item.GUID).Nodup → (postCalls tr).map some = (unseen c l).map (statusOf san acct)
  all_ok : env.postOk →
    failed tr = [] ∧ (attempted tr).Nodup ∧ ∀ itm ∈ l, c2.has itm.GUID = true

/-- Every maximal run of characters of the class `\s` replaced by one space:
a `\s` character followed by another one is dropped, the last one of a run
becomes a space, every other character is kept. -/
def squeeze : List Char → List Char
  | [] => []
  | c :: cs =>
    if reSpace c then
      match cs with
      | [] => [' ']
      | d :: _ => if reSpace d then squeeze cs else ' ' :: squeeze cs
    else c :: squeeze cs

/-! ## Theorems -/

/-! ### The cache -/

theorem Cache.has_set (c : Cache) (g g' : String) (v : Bool) :
    (c.set g v).has g' = (g == g' || c.has g') := by
  by_cases h : g = g'
  · subst h
    simp [Cache.has, Cache.set]
  · have hany : ∀ l : List (String × Bool),
        (l.filter (fun e => e.1 != g)).any (fun e => e.1 == g') = l.any (fun e => e.1 == g') := by
      intro l
      induction l with
      | nil => rfl
      | cons e l ih =>
        by_cases he : e.1 = g
        · have hne : (e.1 == g') = false := by
            simpa using fun h' => h (he.symm.trans h')
          rw [List.filter_cons, List.any_cons, hne]
          simp [he, ih]
        · rw [List.filter_cons]
          simp [he, ih]
    simp [Cache.has, Cache.set, h, hany]

theorem Cache.has_newCache (g : String) : newCache.has g = false := rfl

/-! ### The selector -/

/-- C8. The text that `doAccount` hands to the normalisation is the title when
`PostField` is "title" or empty, the content when it is "content", and the
title, one space and the content when it is "titlecontent"; for the title
"Hi" and the content "there" under "titlecontent" it is "Hi there". -/
theorem postText_selector (acct : Account) (itm : Item) :
    ((acct.PostField = "title" ∨ acct.PostField = "") → postText acct itm = .ok itm.Title) ∧
    (acct.PostField = "content" → postText acct itm = .ok itm.Content) ∧
    (acct.PostField = "titlecontent" →
      postText acct itm = .ok (itm.Title ++ " " ++ itm.Content)) ∧
    postText { acct with PostField := "titlecontent" } ⟨itm.GUID, "Hi", "there"⟩
      = .ok "Hi there" := by
  refine ⟨?_, ?_, ?_, ?_⟩
  · intro h
    simp [postText, h]
  · intro h
    simp [postText, h]
  · intro h
    simp [postText, h]
  · simp [postText]

/-- C8, at one account and one item for each selector. -/
theorem postText_selector_witness :
    postText ⟨"n", true, "u", "", "m", "p"⟩ ⟨"g", "Hi", "there"⟩ = .ok "Hi" ∧
    postText ⟨"n", true, "u", "content", "m", "p"⟩ ⟨"g", "Hi", "there"⟩ = .ok "there" ∧
    postText ⟨"n", true, "u", "titlecontent", "m", "p"⟩ ⟨"g", "Hi", "there"⟩
      = .ok ("Hi" ++ " " ++ "there") :=
  ⟨(postText_selector ⟨"n", true, "u", "", "m", "p"⟩ ⟨"g", "Hi", "there"⟩).1 (Or.inr rfl),
   (postText_selector ⟨"n", true, "u", "content", "m", "p"⟩ ⟨"g", "Hi", "there"⟩).2.1 rfl,
   (postText_selector ⟨"n", true, "u", "titlecontent", "m", "p"⟩ ⟨"g", "Hi", "there"⟩).2.2.1 rfl⟩

theorem postText_valid {acct : Account} (h : validPostField acct.PostField) (itm : Item) :
    ∃ txt, postText acct itm = .ok txt := by
  unfold postText
  rcases h with h | h | h | h <;> simp [h]

theorem postText_invalid {acct : Account} (h : ¬ validPostField acct.PostField) (itm : Item) :
    postText acct itm = .error (.invalidPostfield acct.Name acct.PostField) := by
  unfold validPostField at h
  simp only [not_or] at h
  simp [postText, h.1, h.2.1, h.2.2.1, h.2.2.2]

/-! ### The truncation -/

theorem utf8_dots : utf8 "..." = [46, 46, 46] := by decide

theorem limitLength_long (txt : List UInt8) (h : maxActivityPostLength < txt.length) :
    limitLength txt = txt.take 446 ++ [46, 46, 46] := by
  unfold limitLength
  rw [if_pos h, utf8_dots]
  rfl

/-- C6, as the claim states it, fails: a text of 460 bytes (460 times `a`) is
cut to 449 bytes, not to 450. -/
theorem limitLength_not_450 :
    (List.replicate 460 (97 : UInt8)).length = 460 ∧
    (limitLength (List.replicate 460 97)).length = 449 ∧
    (limitLength (List.replicate 460 97)).length ≠ maxActivityPostLength := by
  have h : (limitLength (List.replicate 460 97)).length = 449 := by
    rw [limitLength_long _ (by rw [List.length_replicate]; decide)]
    rw [List.length_append, List.length_take, List.length_replicate]
    rfl
  refine ⟨List.length_replicate _ _, h, ?_⟩
  rw [h]
  decide

/-- C6, amended. A text longer than 450 bytes is cut to exactly 449 bytes: its
first 446 bytes followed by the three bytes of "..."; a text of at most 450
bytes is returned unchanged. No result is longer than 450 bytes. -/
theorem limitLength_spec (txt : List UInt8) :
    (maxActivityPostLength < txt.length →
      (limitLength txt).length = 449 ∧
      (limitLength txt).take 446 = txt.take 446 ∧
      (limitLength txt).drop 446 = utf8 "...") ∧
    (txt.length ≤ maxActivityPostLength → limitLength txt = txt) ∧
    (limitLength txt).length ≤ maxActivityPostLength := by
  refine ⟨?_, ?_, ?_⟩
  · intro h
    have h446 : (txt.take 446).length = 446 := by
      simp [maxActivityPostLength] at h ⊢
      omega
    rw [limitLength_long txt h, utf8_dots]
    refine ⟨by simp [h446], ?_, ?_⟩
    · rw [List.take_append_of_le_length (by omega)]
      simp
    · rw [List.drop_append_of_le_length (by omega)]
      simp [List.drop_eq_nil_of_le, h446]
  · intro h
    simp [limitLength, Nat.not_lt.mpr h]
  · by_cases h : maxActivityPostLength < txt.length
    · rw [limitLength_long txt h]
      simp [maxActivityPostLength]
    · simp [limitLength, h]
      omega

/-- C6 amended, at a text of 460 bytes and at a text of 3 bytes. -/
theorem limitLength_spec_witness :
    (limitLength (List.replicate 460 97)).length = 449 ∧
    (limitLength (List.replicate 460 97)).drop 446 = utf8 "..." ∧
    limitLength [72, 105, 33] = [72, 105, 33] :=
  ⟨((limitLength_spec (List.replicate 460 97)).1
      (by rw [List.length_replicate]; decide)).1,
   ((limitLength_spec (List.replicate 460 97)).1
      (by rw [List.length_replicate]; decide)).2.2,
   (limitLength_spec [72, 105, 33]).2.1 (by decide)⟩

/-! ### Reading a trace that grows -/

theorem authCalls_append (a b : List Event) : authCalls (a ++ b) = authCalls a + authCalls b := by
  simp [authCalls, List.filter_append]

theorem postCalls_append (a b : List Event) : postCalls (a ++ b) = postCalls a ++ postCalls b := by
  induction a with
  | nil => rfl
  | cons e a ih => cases e <;> simp [postCalls, ih]

theorem attempted_append (a b : List Event) : attempted (a ++ b) = attempted a ++ attempted b := by
  induction a with
  | nil => rfl
  | cons e a ih => cases e <;> simp [attempted, ih]

theorem succeeded_append (a b : List Event) : succeeded (a ++ b) = succeeded a ++ succeeded b := by
  induction a with
  | nil => rfl
  | cons e a ih =>
    cases e with
    | post g s ok => cases ok <;> simp [succeeded, ih]
    | _ => simp [succeeded, ih]

theorem failed_append (a b : List Event) : failed (a ++ b) = failed a ++ failed b := by
  induction a with
  | nil => rfl
  | cons e a ih =>
    cases e with
    | post g s ok => cases ok <;> simp [failed, ih]
    | _ => simp [failed, ih]

theorem saved_append (a b : List Event) : saved (a ++ b) = saved a ++ saved b := by
  induction a with
  | nil => rfl
  | cons e a ih => cases e <;> simp [saved, ih]

theorem succeeded_subset_attempted (tr : List Event) : ∀ g ∈ succeeded tr, g ∈ attempted tr := by
  induction tr with
  | nil => simp [succeeded]
  | cons e tr ih =>
    cases e with
    | post g s ok =>
      cases ok
      · intro x hx
        simp only [succeeded] at hx
        simp [attempted, ih x hx]
      · intro x hx
        simp only [succeeded, List.mem_cons] at hx
        rcases hx with rfl | hx
        · simp [attempted]
        · simp [attempted, ih x hx]
    | auth ok => simpa [succeeded, attempted] using ih
    | save c => simpa [succeeded, attempted] using ih

/-- When no item is tried twice, the failed items are the tried items that
did not succeed, in the same order. -/
theorem failed_eq_filter (tr : List Event) (hnd : (attempted tr).Nodup) :
    failed tr = (attempted tr).filter (fun g => decide (g ∉ succeeded tr)) := by
  induction tr with
  | nil => rfl
  | cons e tr ih =>
    cases e with
    | auth ok => simpa [failed, attempted, succeeded] using ih hnd
    | save c => simpa [failed, attempted, succeeded] using ih hnd
    | post g s ok =>
      simp only [attempted, List.nodup_cons] at hnd
      have hg : g ∉ succeeded tr := fun h => hnd.1 (succeeded_subset_attempted tr g h)
      cases ok
      · simp only [failed, attempted, succeeded]
        rw [List.filter_cons, if_pos (by simpa using hg), ih hnd.2]
      · simp only [failed, attempted, succeeded]
        rw [List.filter_cons, if_neg (by simp), ih hnd.2]
        apply List.filter_congr
        intro x hx
        have hxg : x ≠ g := fun h => hnd.1 (h ▸ hx)
        simp [hxg]

/-! ### The loop, one iteration at a time -/

theorem replay_cons_seen (env : Env) (san : String → String) (noop : Bool) (acct : Account)
    (itm : Item) (rest : List Item) (st : LoopState) (h : st.cache.has itm.GUID = true) :
    replay env san noop acct (itm :: rest) st = replay env san noop acct rest st := by
  simp [replay, visit, h]

theorem replay_cons_unseen (env : Env) (san : String → String) (acct : Account)
    (itm : Item) (rest : List Item) (st : LoopState) (txt : String)
    (hauth : env.authOk) (ha : st.authed = false) (h : st.cache.has itm.GUID = false)
    (htxt : postText acct itm = .ok txt) :
    replay env san false acct (itm :: rest) st =
      replay env san false acct rest
        (postItem env itm (normalise san txt) ⟨false, st.cache, st.trace ++ [.auth true]⟩) := by
  obtain ⟨a, c, tr⟩ := st
  simp only at ha h
  subst ha
  simp [replay, visit, h, htxt, authenticate, hauth (tr)]

theorem replay_all_seen (env : Env) (san : String → String) (noop : Bool) (acct : Account)
    (st : LoopState) :
    ∀ l : List Item, (∀ itm ∈ l, st.cache.has itm.GUID = true) →
      replay env san noop acct l st = (st, none) := by
  intro l
  induction l with
  | nil => intro _; rfl
  | cons itm rest ih =>
    intro h
    rw [replay_cons_seen _ _ _ _ _ _ _ (h itm (List.mem_cons_self _ _))]
    exact ih (fun x hx => h x (List.mem_cons_of_mem _ hx))

theorem unseen_cons_seen (c : Cache) (itm : Item) (l : List Item) (h : c.has itm.GUID = true) :
    unseen c (itm :: l) = unseen c l := by
  simp [unseen, List.filter_cons, h]

theorem unseen_cons_unseen (c : Cache) (itm : Item) (l : List Item) (h : c.has itm.GUID = false) :
    unseen c (itm :: l) = itm :: unseen c l := by
  simp [unseen, List.filter_cons, h]

theorem unseen_set (c : Cache) (g : String) (v : Bool) (l : List Item)
    (hg : g ∉ l.map Item.GUID) : unseen (c.set g v) l = unseen c l := by
  apply List.filter_congr
  intro x hx
  have : g ≠ x.GUID := fun h => hg (h ▸ List.mem_map_of_mem _ hx)
  simp [Cache.has_set, this]

/-- The loop with a valid selector, dry-run off and authentication that
succeeds: it runs to the end of the items, and the calls it makes and the
cache it leaves are related as `Replayed` says. -/
theorem replay_run (env : Env) (san : String → String) (acct : Account)
    (hsel : validPostField acct.PostField) (hauth : env.authOk) :
    ∀ (l : List Item) (st : LoopState), st.authed = false →
      ∃ tr c2, replay env san false acct l st = (⟨false, c2, st.trace ++ tr⟩, none) ∧
        Replayed env san acct st.cache l tr c2 := by
  intro l
  induction l with
  | nil =>
    intro st ha
    obtain ⟨a, c, tr0⟩ := st
    simp only at ha
    subst ha
    refine ⟨[], c, by simp [replay], ?_⟩
    exact
      { has_iff := by simp [succeeded]
        auth_count := rfl
        no_save := rfl
        fresh := by simp [attempted]
        tried := fun _ => rfl
        texts := fun _ => rfl
        all_ok := fun _ => ⟨rfl, by simp [attempted], by simp⟩ }
  | cons itm rest ih =>
    intro st ha
    by_cases hseen : st.cache.has itm.GUID = true
    · obtain ⟨tr, c2, hrun, hR⟩ := ih st ha
      refine ⟨tr, c2, by rw [replay_cons_seen _ _ _ _ _ _ _ hseen, hrun], ?_⟩
      exact
        { has_iff := hR.has_iff
          auth_count := hR.auth_count
          no_save := hR.no_save
          fresh := hR.fresh
          tried := fun hnd => by
            rw [unseen_cons_seen _ _ _ hseen]
            exact hR.tried (List.nodup_cons.mp hnd).2
          texts := fun hnd => by
            rw [unseen_cons_seen _ _ _ hseen]
            exact hR.texts (List.nodup_cons.mp hnd).2
          all_ok := fun hp => by
            obtain ⟨h1, h2, h3⟩ := hR.all_ok hp
            refine ⟨h1, h2, ?_⟩
            intro x hx
            rcases List.mem_cons.mp hx with rfl | hx
            · rw [hR.has_iff, hseen]; rfl
            · exact h3 x hx }
    · have hun : st.cache.has itm.GUID = false := by simpa using hseen
      obtain ⟨txt, htxt⟩ := postText_valid hsel itm
      have hstat : statusOf san acct itm = some (normalise san txt) := by
        simp [statusOf, htxt]
      rw [replay_cons_unseen env san acct itm rest st txt hauth ha hun htxt]
      cases hok : env.PostStatus (st.trace ++ [.auth true]) (normalise san txt) with
      | false =>
        have hst : postItem env itm (normalise san txt) ⟨false, st.cache, st.trace ++ [.auth true]⟩
            = ⟨false, st.cache,
                st.trace ++ [.auth true, .post itm.GUID (normalise san txt) false]⟩ := by
          simp [postItem, hok]
        rw [hst]
        obtain ⟨tr, c2, hrun, hR⟩ := ih ⟨false, st.cache,
          st.trace ++ [.auth true, .post itm.GUID (normalise san txt) false]⟩ rfl
        refine ⟨[.auth true, .post itm.GUID (normalise san txt) false] ++ tr, c2, ?_, ?_⟩
        · rw [hrun]; simp
        · simp only at hR
          exact
            { has_iff := by
                intro g
                rw [hR.has_iff g]
                simp [succeeded]
              auth_count := by
                have := hR.auth_count
                simp [authCalls, attempted] at this ⊢
                omega
              no_save := by simpa [saved] using hR.no_save
              fresh := by
                intro g hg
                simp only [List.cons_append, List.nil_append, attempted, List.mem_cons] at hg
                rcases hg with rfl | hg
                · exact hun
                · exact hR.fresh g hg
              tried := fun hnd => by
                rw [unseen_cons_unseen _ _ _ hun]
                simp [attempted, hR.tried (List.nodup_cons.mp hnd).2]
              texts := fun hnd => by
                rw [unseen_cons_unseen _ _ _ hun]
                have h := hR.texts (List.nodup_cons.mp hnd).2
                simp [postCalls, hstat, h]
              all_ok := fun hp => by
                rw [hp] at hok
                cases hok }
      | true =>
        have hst : postItem env itm (normalise san txt) ⟨false, st.cache, st.trace ++ [.auth true]⟩
            = ⟨false, st.cache.set itm.GUID true,
                st.trace ++ [.auth true, .post itm.GUID (normalise san txt) true]⟩ := by
          simp [postItem, hok]
        rw [hst]
        obtain ⟨tr, c2, hrun, hR⟩ := ih ⟨false, st.cache.set itm.GUID true,
          st.trace ++ [.auth true, .post itm.GUID (normalise san txt) true]⟩ rfl
        refine ⟨[.auth true, .post itm.GUID (normalise san txt) true] ++ tr, c2, ?_, ?_⟩
        · rw [hrun]; simp
        · simp only at hR
          have hfresh : ∀ g ∈ attempted tr, g ≠ itm.GUID ∧ st.cache.has g = false := by
            intro g hg
            have := hR.fresh g hg
            rw [Cache.has_set] at this
            simp only [Bool.or_eq_false_iff, beq_eq_false_iff_ne, ne_eq] at this
            exact ⟨fun h => this.1 h.symm, this.2⟩
          exact
            { has_iff := by
                intro g
                rw [hR.has_iff g, Cache.has_set]
                by_cases hg : itm.GUID = g
                · simp [succeeded, hg]
                · have hg' : ¬ g = itm.GUID := fun h => hg h.symm
                  have hb : (itm.GUID == g) = false := by simpa using hg
                  simp [succeeded, hb, hg']
              auth_count := by
                have := hR.auth_count
                simp [authCalls, attempted] at this ⊢
                omega
              no_save := by simpa [saved] using hR.no_save
              fresh := by
                intro g hg
                simp only [List.cons_append, List.nil_append, attempted, List.mem_cons] at hg
                rcases hg with rfl | hg
                · exact hun
                · exact (hfresh g hg).2
              tried := fun hnd => by
                rw [unseen_cons_unseen _ _ _ hun]
                have h2 := List.nodup_cons.mp hnd
                simp [attempted, hR.tried h2.2, unseen_set _ _ _ _ h2.1]
              texts := fun hnd => by
                rw [unseen_cons_unseen _ _ _ hun]
                have h2 := List.nodup_cons.mp hnd
                have h := hR.texts h2.2
                rw [unseen_set _ _ _ _ h2.1] at h
                simp [postCalls, hstat, h]
              all_ok := fun hp => by
                obtain ⟨h1, h2, h3⟩ := hR.all_ok hp
                refine ⟨by simpa [failed] using h1, ?_, ?_⟩
                · simp only [List.cons_append, List.nil_append, attempted, List.nodup_cons]
                  exact ⟨fun h => (hfresh _ h).1 rfl, h2⟩
                · intro x hx
                  rcases List.mem_cons.mp hx with rfl | hx
                  · rw [hR.has_iff, Cache.has_set]; simp
                  · exact h3 x hx }

/-- A run of `doAccount` with a valid selector, dry-run off and authentication
that succeeds: the loop runs to its end and the cache is saved once. -/
theorem doAccount_run (env : Env) (san : String → String) (acct : Account) (cache : Cache)
    (items : List Item) (hsel : validPostField acct.PostField) (hauth : env.authOk) :
    ∃ tr c2, doAccount env san false acct cache items = ⟨c2, tr ++ [.save c2], none⟩ ∧
      Replayed env san acct cache items.reverse tr c2 := by
  obtain ⟨tr, c2, hrun, hR⟩ := replay_run env san acct hsel hauth items.reverse ⟨false, cache, []⟩ rfl
  refine ⟨tr, c2, ?_, hR⟩
  simp [doAccount, hrun]

/-! ### Dry-run and invalid selectors -/

theorem visit_noop (env : Env) (san : String → String) (acct : Account) (st : LoopState)
    (itm : Item) : (visit env san true acct st itm).1 = st := by
  unfold visit
  split
  · rfl
  · split <;> rfl

theorem replay_noop (env : Env) (san : String → String) (acct : Account) :
    ∀ (l : List Item) (st : LoopState), (replay env san true acct l st).1 = st := by
  intro l
  induction l with
  | nil => intro st; rfl
  | cons itm rest ih =>
    intro st
    have hv := visit_noop env san acct st itm
    unfold replay
    rcases hvis : visit env san true acct st itm with ⟨st2, _ | e⟩
    · rw [hvis] at hv
      simp only at hv
      subst hv
      exact ih _
    · rw [hvis] at hv
      exact hv

/-- C4. With the dry-run flag set, a run of `doAccount` makes no `doAuth`
call, no `PostStatus` call and no `saveCache` call (its trace is empty), and
the in-memory cache is the loaded one, for every feed, cache and selector. -/
theorem doAccount_noop_pure (env : Env) (san : String → String) (acct : Account)
    (cache : Cache) (items : List Item) :
    (doAccount env san true acct cache items).trace = [] ∧
    authCalls (doAccount env san true acct cache items).trace = 0 ∧
    postCalls (doAccount env san true acct cache items).trace = [] ∧
    saved (doAccount env san true acct cache items).trace = [] ∧
    (doAccount env san true acct cache items).cache = cache := by
  have h := replay_noop env san acct items.reverse ⟨false, cache, []⟩
  have htr : (doAccount env san true acct cache items).trace = [] ∧
      (doAccount env san true acct cache items).cache = cache := by
    unfold doAccount
    rcases hrun : replay env san true acct items.reverse ⟨false, cache, []⟩ with ⟨st, _ | e⟩
    · rw [hrun] at h
      simp only at h
      subst h
      simp
    · rw [hrun] at h
      simp only at h
      subst h
      simp
  rw [htr.1]
  exact ⟨rfl, rfl, rfl, rfl, htr.2⟩

theorem replay_invalid (env : Env) (san : String → String) (noop : Bool) (acct : Account)
    (hbad : ¬ validPostField acct.PostField) (st : LoopState) :
    ∀ l : List Item, (∃ itm ∈ l, st.cache.has itm.GUID = false) →
      replay env san noop acct l st
        = (st, some (.invalidPostfield acct.Name acct.PostField)) := by
  intro l
  induction l with
  | nil => rintro ⟨itm, h, _⟩; cases h
  | cons itm rest ih =>
    rintro ⟨x, hx, hxu⟩
    by_cases hseen : st.cache.has itm.GUID = true
    · rw [replay_cons_seen _ _ _ _ _ _ _ hseen]
      rcases List.mem_cons.mp hx with rfl | hx
      · rw [hseen] at hxu
        cases hxu
      · exact ih ⟨x, hx, hxu⟩
    · simp [replay, visit, hseen, postText_invalid hbad]

/-- C9, as the claim states it, fails: with the selector "body" and a feed
whose only item is already in the cache, the run meets no error: it goes to
the end and saves the cache. -/
theorem doAccount_invalid_no_error :
    ¬ validPostField "body" ∧
    doAccount okEnv plainSan false ⟨"n", true, "u", "body", "m", "p"⟩ ⟨[("a", true)]⟩
        [⟨"a", "A", "text"⟩]
      = ⟨⟨[("a", true)]⟩, [.save ⟨[("a", true)]⟩], none⟩ := by
  decide

/-- C9, amended. With a selector that is none of "", "title", "content",
"titlecontent", a run of `doAccount` makes no `doAuth` and no `PostStatus`
call and leaves the cache as loaded. When the feed has an item whose GUID is
not in the cache, the run returns from inside the loop with the error of the
`default` case and has made no call at all (the cache is not saved); when
every item of the feed is in the cache, the run meets no error and ends as
a run with a valid selector does (the cache is saved unless dry-run is on). -/
theorem doAccount_invalid_postfield (env : Env) (san : String → String) (noop : Bool)
    (acct : Account) (cache : Cache) (items : List Item)
    (hbad : ¬ validPostField acct.PostField) :
    (doAccount env san noop acct cache items).cache = cache ∧
    authCalls (doAccount env san noop acct cache items).trace = 0 ∧
    postCalls (doAccount env san noop acct cache items).trace = [] ∧
    ((∃ itm ∈ items, cache.has itm.GUID = false) →
      doAccount env san noop acct cache items
        = ⟨cache, [], some (.invalidPostfield acct.Name acct.PostField)⟩) ∧
    ((∀ itm ∈ items, cache.has itm.GUID = true) →
      doAccount env san noop acct cache items
        = ⟨cache, if noop then [] else [.save cache], none⟩) := by
  by_cases hall : ∀ itm ∈ items, cache.has itm.GUID = true
  · have hrun : replay env san noop acct items.reverse ⟨false, cache, []⟩
        = (⟨false, cache, []⟩, none) :=
      replay_all_seen env san noop acct _ _ (fun x hx => hall x (List.mem_reverse.mp hx))
    have hres : doAccount env san noop acct cache items
        = ⟨cache, if noop then [] else [.save cache], none⟩ := by
      cases noop <;> simp [doAccount, hrun]
    rw [hres]
    refine ⟨rfl, ?_, ?_, ?_, fun _ => rfl⟩
    · cases noop <;> rfl
    · cases noop <;> rfl
    · rintro ⟨x, hx, hxu⟩
      rw [hall x hx] at hxu
      cases hxu
  · have hex : ∃ itm ∈ items, cache.has itm.GUID = false := by
      by_contra hne
      apply hall
      intro x hx
      by_contra hxs
      exact hne ⟨x, hx, by simpa using hxs⟩
    have hrun : replay env san noop acct items.reverse ⟨false, cache, []⟩
        = (⟨false, cache, []⟩, some (.invalidPostfield acct.Name acct.PostField)) := by
      obtain ⟨x, hx, hxu⟩ := hex
      exact replay_invalid env san noop acct hbad _ _ ⟨x, List.mem_reverse.mpr hx, hxu⟩
    have hres : doAccount env san noop acct cache items
        = ⟨cache, [], some (.invalidPostfield acct.Name acct.PostField)⟩ := by
      simp [doAccount, hrun]
    rw [hres]
    exact ⟨rfl, rfl, rfl, fun _ => rfl, fun h => absurd h hall⟩

/-- C9 amended, at the selector "body": a feed with one new item ends in the
error with no call made, a feed with no new item ends without error. -/
theorem doAccount_invalid_postfield_witness :
    doAccount okEnv plainSan false ⟨"n", true, "u", "body", "m", "p"⟩ newCache
        [⟨"b", "B", "text"⟩, ⟨"a", "A", "text"⟩]
      = ⟨newCache, [], some (.invalidPostfield "n" "body")⟩ ∧
    doAccount okEnv plainSan false ⟨"n", true, "u", "body", "m", "p"⟩ ⟨[("a", true)]⟩
        [⟨"a", "A", "text"⟩]
      = ⟨⟨[("a", true)]⟩, [.save ⟨[("a", true)]⟩], none⟩ :=
  ⟨(doAccount_invalid_postfield okEnv plainSan false ⟨"n", true, "u", "body", "m", "p"⟩ newCache
      [⟨"b", "B", "text"⟩, ⟨"a", "A", "text"⟩] (by decide)).2.2.2.1
      ⟨⟨"a", "A", "text"⟩, by decide, by decide⟩,
   (doAccount_invalid_postfield okEnv plainSan false ⟨"n", true, "u", "body", "m", "p"⟩
      ⟨[("a", true)]⟩ [⟨"a", "A", "text"⟩] (by decide)).2.2.2.2 (by decide)⟩

/-! ### Authentication -/

/-- C5, at a feed with two new items: `doAuth` is called twice in one run,
once before each `PostStatus` call. -/
theorem doAccount_auth_twice :
    (doAccount okEnv plainSan false ⟨"n", true, "u", "title", "m", "p"⟩ newCache
        [⟨"b", "B", ""⟩, ⟨"a", "A", ""⟩]).trace
      = [.auth true, .post "a" (utf8 "A") true, .auth true, .post "b" (utf8 "B") true,
         .save ⟨[("b", true), ("a", true)]⟩] ∧
    authCalls (doAccount okEnv plainSan false ⟨"n", true, "u", "title", "m", "p"⟩ newCache
        [⟨"b", "B", ""⟩, ⟨"a", "A", ""⟩]).trace = 2 := by
  decide

/-! ### Replay: idempotence, order, partial failure -/

/-- C1. With a valid selector, dry-run off, and authentication and every post
of the first run succeeding, a second run on the same feed with the cache left
(and saved) by the first run makes no `PostStatus` call, and no GUID is handed
to `PostStatus` more than once over the two runs, whether or not the feed
lists a GUID several times. -/
theorem replay_idempotent (env1 env2 : Env) (san : String → String) (acct : Account)
    (cache : Cache) (items : List Item) (hsel : validPostField acct.PostField)
    (hauth : env1.authOk) (hpost : env1.postOk) :
    let r1 := doAccount env1 san false acct cache items
    let r2 := doAccount env2 san false acct r1.cache items
    postCalls r2.trace = [] ∧
    (attempted r1.trace ++ attempted r2.trace).Nodup ∧
    saved r1.trace = [r1.cache] ∧
    r2.cache = r1.cache := by
  intro r1 r2
  obtain ⟨tr, c2, hrun, hR⟩ := doAccount_run env1 san acct cache items hsel hauth
  obtain ⟨_, hnd, hall⟩ := hR.all_ok hpost
  have h1 : r1 = ⟨c2, tr ++ [.save c2], none⟩ := hrun
  have hrep : replay env2 san false acct items.reverse ⟨false, c2, []⟩ = (⟨false, c2, []⟩, none) :=
    replay_all_seen env2 san false acct _ _ hall
  have h2 : r2 = ⟨c2, [.save c2], none⟩ := by
    show doAccount env2 san false acct r1.cache items = _
    rw [h1]
    simp [doAccount, hrep]
  rw [h1, h2]
  refine ⟨rfl, ?_, ?_, rfl⟩
  · simpa [attempted_append, attempted] using hnd
  · simp [saved_append, saved, hR.no_save]

/-- C1, at a feed that lists the GUID `a` twice. -/
theorem replay_idempotent_witness :
    postCalls (doAccount okEnv plainSan false ⟨"n", true, "u", "title", "m", "p"⟩
      (doAccount okEnv plainSan false ⟨"n", true, "u", "title", "m", "p"⟩ newCache
        [⟨"a", "A", ""⟩, ⟨"b", "B", ""⟩, ⟨"a", "A", ""⟩]).cache
      [⟨"a", "A", ""⟩, ⟨"b", "B", ""⟩, ⟨"a", "A", ""⟩]).trace = [] :=
  (replay_idempotent okEnv okEnv plainSan ⟨"n", true, "u", "title", "m", "p"⟩ newCache
    [⟨"a", "A", ""⟩, ⟨"b", "B", ""⟩, ⟨"a", "A", ""⟩] (by decide)
    (fun _ => rfl) (fun _ _ => rfl)).1

/-- C2. For a feed with pairwise distinct GUIDs and an empty cache, with a
valid selector, dry-run off and authentication succeeding, the status texts
handed to `PostStatus` are, in call order, the normalised texts of the feed
items from the last item of the feed to the first. This holds when every post
succeeds, and also when some fail. -/
theorem replay_order (env : Env) (san : String → String) (acct : Account)
    (items : List Item) (hsel : validPostField acct.PostField)
    (hauth : env.authOk) (hnd : (items.map Item.GUID).Nodup) :
    (postCalls (doAccount env san false acct newCache items).trace).map some
      = items.reverse.map (statusOf san acct) ∧
    attempted (doAccount env san false acct newCache items).trace
      = items.reverse.map Item.GUID := by
  obtain ⟨tr, c2, hrun, hR⟩ := doAccount_run env san acct newCache items hsel hauth
  have hnd2 : (items.reverse.map Item.GUID).Nodup := by
    rw [List.map_reverse]
    exact List.nodup_reverse.mpr hnd
  have hun : unseen newCache items.reverse = items.reverse := by
    simp [unseen, Cache.has_newCache]
  rw [hrun]
  constructor
  · have := hR.texts hnd2
    rw [hun] at this
    simpa [postCalls_append, postCalls] using this
  · have := hR.tried hnd2
    rw [hun] at this
    simpa [attempted_append, attempted] using this

/-- C2, at the feed `[C, B, A]` (newest first): the posts are A, B, C. -/
theorem replay_order_witness :
    postCalls (doAccount okEnv plainSan false ⟨"n", true, "u", "title", "m", "p"⟩ newCache
      [⟨"c", "C", ""⟩, ⟨"b", "B", ""⟩, ⟨"a", "A", ""⟩]).trace
      = [utf8 "A", utf8 "B", utf8 "C"] := by
  have h := (replay_order okEnv plainSan ⟨"n", true, "u", "title", "m", "p"⟩
    [⟨"c", "C", ""⟩, ⟨"b", "B", ""⟩, ⟨"a", "A", ""⟩] (by decide)
    (fun _ => rfl) (by decide)).1
  have h2 : ([⟨"c", "C", ""⟩, ⟨"b", "B", ""⟩, ⟨"a", "A", ""⟩] : List Item).reverse.map
      (statusOf plainSan ⟨"n", true, "u", "title", "m", "p"⟩)
      = [some (utf8 "A"), some (utf8 "B"), some (utf8 "C")] := by decide
  rw [h2] at h
  exact List.map_injective_iff.mpr (Option.some_injective _) h

/-- C3. For a feed with pairwise distinct GUIDs, any cache, a valid selector,
dry-run off, authentication succeeding and any outcome of the post calls:
`PostStatus` is called for every item whose GUID is not in the cache, in
replay order, whatever failed before it; the cache at the end of the run, which
is the one saved, holds exactly the GUIDs it held at the start and the GUIDs
of the items whose post succeeded, and none whose post failed; and the next
run on the same feed calls `PostStatus` for exactly the items whose post
failed. -/
theorem partial_failure_isolated (env1 env2 : Env) (san : String → String) (acct : Account)
    (cache : Cache) (items : List Item) (hsel : validPostField acct.PostField)
    (hauth1 : env1.authOk) (hauth2 : env2.authOk) (hnd : (items.map Item.GUID).Nodup) :
    let r1 := doAccount env1 san false acct cache items
    let r2 := doAccount env2 san false acct r1.cache items
    attempted r1.trace = (unseen cache items.reverse).map Item.GUID ∧
    (∀ g, r1.cache.has g = true ↔ cache.has g = true ∨ g ∈ succeeded r1.trace) ∧
    (∀ g ∈ failed r1.trace, r1.cache.has g = false) ∧
    saved r1.trace = [r1.cache] ∧
    r1.err = none ∧
    attempted r2.trace = failed r1.trace := by
  intro r1 r2
  obtain ⟨tr, c2, hrun, hR⟩ := doAccount_run env1 san acct cache items hsel hauth1
  obtain ⟨tr2, c3, hrun2, hR2⟩ := doAccount_run env2 san acct c2 items hsel hauth2
  have h1 : r1 = ⟨c2, tr ++ [.save c2], none⟩ := hrun
  have h2 : r2 = ⟨c3, tr2 ++ [.save c3], none⟩ := by
    show doAccount env2 san false acct r1.cache items = _
    rw [h1]
    exact hrun2
  have hnd2 : (items.reverse.map Item.GUID).Nodup := by
    rw [List.map_reverse]
    exact List.nodup_reverse.mpr hnd
  have hatt := hR.tried hnd2
  have hattnd : (attempted tr).Nodup := by
    rw [hatt]
    exact hnd2.sublist (List.Sublist.map _ (List.filter_sublist _))
  have hfail := failed_eq_filter tr hattnd
  rw [h1, h2]
  simp only [attempted_append, succeeded_append, failed_append, saved_append, attempted,
    succeeded, failed, saved, List.append_nil, hR.no_save, List.nil_append]
  refine ⟨hatt, ?_, ?_, trivial, trivial, ?_⟩
  · intro g
    rw [hR.has_iff g]
    simp
  · intro g hg
    rw [hfail] at hg
    obtain ⟨hga, hgs⟩ := List.mem_filter.mp hg
    rw [hR.has_iff g, hR.fresh g hga]
    simpa using hgs
  · rw [hR2.tried hnd2, hfail, hatt]
    simp only [unseen, List.filter_map]
    congr 1
    rw [List.filter_filter]
    apply List.filter_congr
    intro x _
    rw [hR.has_iff]
    simp [Bool.and_comm]

/-- C3, at the feed `[C, B, A]` where the post of B fails: the cache ends with
`a` and `c` and without `b`, and the next run tries `b` only. -/
theorem partial_failure_isolated_witness :
    (doAccount failB plainSan false ⟨"n", true, "u", "title", "m", "p"⟩ newCache
      [⟨"c", "C", ""⟩, ⟨"b", "B", ""⟩, ⟨"a", "A", ""⟩]).cache = ⟨[("c", true), ("a", true)]⟩ ∧
    attempted (doAccount okEnv plainSan false ⟨"n", true, "u", "title", "m", "p"⟩
      (doAccount failB plainSan false ⟨"n", true, "u", "title", "m", "p"⟩ newCache
        [⟨"c", "C", ""⟩, ⟨"b", "B", ""⟩, ⟨"a", "A", ""⟩]).cache
      [⟨"c", "C", ""⟩, ⟨"b", "B", ""⟩, ⟨"a", "A", ""⟩]).trace = ["b"] := by
  refine ⟨by decide, ?_⟩
  rw [(partial_failure_isolated failB okEnv plainSan ⟨"n", true, "u", "title", "m", "p"⟩ newCache
    [⟨"c", "C", ""⟩, ⟨"b", "B", ""⟩, ⟨"a", "A", ""⟩] (by decide)
    (fun _ => rfl) (fun _ => rfl) (by decide)).2.2.2.2.2]
  decide

/-! ### Whitespace -/

theorem reSpace_unicode (c : Char) (h : reSpace c = true) : unicodeIsSpace c = true := by
  simp only [reSpace, Bool.or_eq_true, beq_iff_eq] at h
  rcases h with (((h | h) | h) | h) | h <;> subst h <;> decide

theorem take_takeWhile_length {α : Type} (p : α → Bool) (s : List α) :
    s.take (s.takeWhile p).length = s.takeWhile p := by
  induction s with
  | nil => rfl
  | cons c cs ih =>
    by_cases hc : p c = true
    · simp [List.takeWhile_cons, hc, ih]
    · simp [List.takeWhile_cons, hc]

theorem drop_takeWhile_length {α : Type} (p : α → Bool) (s : List α) :
    s.drop (s.takeWhile p).length = s.dropWhile p := by
  induction s with
  | nil => rfl
  | cons c cs ih =>
    by_cases hc : p c = true
    · simp [List.takeWhile_cons, List.dropWhile_cons, hc, ih]
    · simp [List.takeWhile_cons, List.dropWhile_cons, hc]

theorem matchHere_plus_last (cls : Char → Bool) (s : List Char) :
    matchHere [.plus cls] s =
      if s.takeWhile cls = [] then none
      else some ([s.takeWhile cls], s.dropWhile cls) := by
  have hb : ∀ n, backoff (matchHere []) s 1 n
      = if n = 0 then none else some (s.take n, ([], s.drop n)) := by
    intro n
    cases n with
    | zero => simp [backoff]
    | succ k => simp [backoff, matchHere]
  unfold matchHere
  rw [hb]
  by_cases h : s.takeWhile cls = []
  · simp [h]
  · have h0 : ¬ (s.takeWhile cls).length = 0 := fun h' => h (List.length_eq_zero.mp h')
    simp [h, h0, take_takeWhile_length, drop_takeWhile_length]

theorem matchAt_spaceRe (s : List Char) :
    matchAt spaceRe s =
      if s.takeWhile reSpace = [] then none
      else some ⟨s.takeWhile reSpace, [], s.dropWhile reSpace⟩ := by
  have ha : spaceRe.flatMap Part.atoms = [.plus reSpace] := rfl
  unfold matchAt
  rw [ha, matchHere_plus_last]
  by_cases h : s.takeWhile reSpace = []
  · simp [h]
  · simp [h, spaceRe, regroup]

theorem squeeze_space (c : Char) (hc : reSpace c = true) (cs : List Char) :
    squeeze (c :: cs) = ' ' :: squeeze (cs.dropWhile reSpace) := by
  induction cs generalizing c with
  | nil => simp [squeeze, hc]
  | cons d ds ih =>
    by_cases hd : reSpace d = true
    · rw [List.dropWhile_cons_of_pos hd, ← ih d hd]
      simp [squeeze, hc, hd]
    · rw [List.dropWhile_cons_of_neg hd]
      simp [squeeze, hc, hd]

theorem squeeze_other (c : Char) (hc : reSpace c = false) (cs : List Char) :
    squeeze (c :: cs) = c :: squeeze cs := by
  simp [squeeze, hc]

theorem replaceAll_spaceRe :
    ∀ (fuel : Nat) (s : List Char), s.length ≤ fuel →
      replaceAll spaceRe [.text " "] fuel s = squeeze s := by
  intro fuel
  induction fuel with
  | zero =>
    intro s hs
    have : s = [] := List.length_eq_zero.mp (Nat.le_zero.mp hs)
    subst this
    rfl
  | succ fuel ih =>
    intro s hs
    cases s with
    | nil => rfl
    | cons c cs =>
      have hcs : cs.length ≤ fuel := by simpa using hs
      by_cases hc : reSpace c = true
      · have hdl : (cs.dropWhile reSpace).length ≤ fuel :=
          le_trans (List.dropWhile_suffix _).length_le hcs
        rw [squeeze_space c hc, ← ih _ hdl]
        simp [replaceAll, matchAt_spaceRe, hc, expand]
      · have hc' : reSpace c = false := by simpa using hc
        rw [squeeze_other c hc', ← ih _ hcs]
        simp [replaceAll, matchAt_spaceRe, hc]

theorem collapseSpace_eq (txt : String) :
    (collapseSpace txt).data = squeeze (TrimSpace txt).data := by
  simp only [collapseSpace, ReplaceAllString]
  exact replaceAll_spaceRe _ _ (le_refl _)

theorem trim_head_not_space (s : List Char) (c : Char)
    (h : ((s.dropWhile unicodeIsSpace).rdropWhile unicodeIsSpace).head? = some c) :
    unicodeIsSpace c = false := by
  obtain ⟨t, ht⟩ := List.rdropWhile_prefix unicodeIsSpace (l := s.dropWhile unicodeIsSpace)
  cases hr : (s.dropWhile unicodeIsSpace).rdropWhile unicodeIsSpace with
  | nil => rw [hr] at h; cases h
  | cons x xs =>
    rw [hr] at h ht
    simp only [List.head?_cons, Option.some.injEq] at h
    subst h
    have h2 := List.head?_dropWhile_not unicodeIsSpace s
    rw [← ht] at h2
    simpa using h2

theorem trim_last_not_space (s : List Char) (c : Char)
    (h : ((s.dropWhile unicodeIsSpace).rdropWhile unicodeIsSpace).getLast? = some c) :
    unicodeIsSpace c = false := by
  have hne : (s.dropWhile unicodeIsSpace).rdropWhile unicodeIsSpace ≠ [] := by
    intro h0
    rw [h0] at h
    cases h
  have h2 := List.rdropWhile_last_not unicodeIsSpace (s.dropWhile unicodeIsSpace) hne
  rw [List.getLast?_eq_getLast _ hne] at h
  simp only [Option.some.injEq] at h
  rw [h] at h2
  simpa using h2

theorem squeeze_getLast (c : Char) (hc : reSpace c = false) :
    ∀ l : List Char, (squeeze (l ++ [c])).getLast? = some c := by
  intro l
  induction l with
  | nil => simp [squeeze, hc]
  | cons d l ih =>
    have hne : squeeze (l ++ [c]) ≠ [] := by
      intro h0
      rw [h0] at ih
      cases ih
    have hcons : ∀ x, (x :: squeeze (l ++ [c])).getLast? = some c := by
      intro x
      cases hs : squeeze (l ++ [c]) with
      | nil => exact absurd hs hne
      | cons y ys =>
        rw [hs] at ih
        rw [List.getLast?_cons_cons]
        exact ih
    by_cases hd : reSpace d = true
    · cases hl : l ++ [c] with
      | nil => simp at hl
      | cons e es =>
        by_cases he : reSpace e = true
        · have : squeeze (d :: l ++ [c]) = squeeze (l ++ [c]) := by
            simp [hl, squeeze, hd, he]
          rw [this]
          exact ih
        · have : squeeze (d :: l ++ [c]) = ' ' :: squeeze (l ++ [c]) := by
            simp [hl, squeeze, hd, he]
          rw [this]
          exact hcons _
    · have : squeeze (d :: l ++ [c]) = d :: squeeze (l ++ [c]) := by
        simp [squeeze, hd]
      rw [this]
      exact hcons _

theorem squeeze_cons_cases (d : Char) (l : List Char) :
    (reSpace d = true ∧ squeeze (d :: l) = squeeze l) ∨
    (reSpace d = true ∧ squeeze (d :: l) = ' ' :: squeeze l ∧
      ∀ y ∈ (squeeze l).head?, reSpace y = false) ∨
    (reSpace d = false ∧ squeeze (d :: l) = d :: squeeze l) := by
  by_cases hd : reSpace d = true
  · cases l with
    | nil =>
      right; left
      exact ⟨hd, by simp [squeeze, hd], by simp [squeeze]⟩
    | cons e es =>
      by_cases he : reSpace e = true
      · left
        exact ⟨hd, by simp [squeeze, hd, he]⟩
      · right; left
        refine ⟨hd, by simp [squeeze, hd, he], ?_⟩
        intro y hy
        simp [squeeze, he] at hy
        subst hy
        simpa using he
  · right; right
    exact ⟨by simpa using hd, by simp [squeeze, hd]⟩

theorem squeeze_space_is_blank : ∀ (l : List Char) (c : Char),
    c ∈ squeeze l → reSpace c = true → c = ' ' := by
  intro l
  induction l with
  | nil => simp [squeeze]
  | cons d l ih =>
    intro c hc hsp
    rcases squeeze_cons_cases d l with ⟨_, h⟩ | ⟨_, h, _⟩ | ⟨hd, h⟩
    · rw [h] at hc
      exact ih c hc hsp
    · rw [h] at hc
      rcases List.mem_cons.mp hc with rfl | hc
      · rfl
      · exact ih c hc hsp
    · rw [h] at hc
      rcases List.mem_cons.mp hc with rfl | hc
      · rw [hd] at hsp
        cases hsp
      · exact ih c hc hsp

theorem squeeze_no_double_blank : ∀ l : List Char,
    (squeeze l).Chain' (fun a b => ¬ (a = ' ' ∧ b = ' ')) := by
  intro l
  induction l with
  | nil => simp [squeeze]
  | cons d l ih =>
    rcases squeeze_cons_cases d l with ⟨_, h⟩ | ⟨_, h, hy⟩ | ⟨hd, h⟩
    · rw [h]
      exact ih
    · rw [h, List.chain'_cons']
      refine ⟨?_, ih⟩
      rintro y hy' ⟨_, rfl⟩
      have := hy _ hy'
      revert this
      decide
    · rw [h, List.chain'_cons']
      refine ⟨?_, ih⟩
      rintro y _ ⟨rfl, _⟩
      revert hd
      decide

/-- C10, as the claim states it, fails: the text `a`, vertical tab, no-break
space, `b` comes back unchanged. Both middle characters are white space for
`strings.TrimSpace` (`unicode.IsSpace`), none is in the class `\s` of the
pattern, so the run of the two is not replaced by one space. -/
theorem collapseSpace_keeps_unicode_space :
    collapseSpace "a\x0b\u00a0b" = "a\x0b\u00a0b" ∧
    unicodeIsSpace '\x0b' = true ∧ unicodeIsSpace '\u00a0' = true ∧
    '\x0b' ∈ (collapseSpace "a\x0b\u00a0b").data ∧
    '\u00a0' ∈ (collapseSpace "a\x0b\u00a0b").data := by
  decide

/-- C10, amended. The whitespace step returns a text with no leading and no
trailing white space (in the sense of `unicode.IsSpace`, which
`strings.TrimSpace` uses), in which every maximal run of characters of the
class `\s` (tab, newline, form feed, carriage return, space) of the trimmed
input has been replaced by one space: the result holds no character of that
class other than spaces, and no two spaces in a row. White space outside the
class `\s` that is inside the text is kept as it is. -/
theorem collapseSpace_spec (txt : String) :
    (collapseSpace txt).data = squeeze (TrimSpace txt).data ∧
    (∀ c, (collapseSpace txt).data.head? = some c → unicodeIsSpace c = false) ∧
    (∀ c, (collapseSpace txt).data.getLast? = some c → unicodeIsSpace c = false) ∧
    (∀ c ∈ (collapseSpace txt).data, reSpace c = true → c = ' ') ∧
    (collapseSpace txt).data.Chain' (fun a b => ¬ (a = ' ' ∧ b = ' ')) := by
  have hns : ∀ c, unicodeIsSpace c = false → reSpace c = false := by
    intro c hc
    by_contra h
    rw [reSpace_unicode c (by simpa using h)] at hc
    cases hc
  rw [collapseSpace_eq]
  refine ⟨rfl, ?_, ?_, squeeze_space_is_blank _, squeeze_no_double_blank _⟩
  · intro c hc
    cases ht : (TrimSpace txt).data with
    | nil => rw [ht] at hc; simp [squeeze] at hc
    | cons x xs =>
      have hx : unicodeIsSpace x = false :=
        trim_head_not_space txt.data x (by
          have := congrArg List.head? ht
          simpa [TrimSpace] using this)
      rw [ht, squeeze_other x (hns x hx)] at hc
      simp only [List.head?_cons, Option.some.injEq] at hc
      rw [← hc]
      exact hx
  · intro c hc
    rcases List.eq_nil_or_concat (TrimSpace txt).data with ht | ⟨l, x, ht⟩
    · rw [ht] at hc; simp [squeeze] at hc
    · have hx : unicodeIsSpace x = false :=
        trim_last_not_space txt.data x (by
          have := congrArg List.getLast? ht
          simpa [TrimSpace] using this)
      rw [ht, List.concat_eq_append, squeeze_getLast x (hns x hx)] at hc
      simp only [Option.some.injEq] at hc
      rw [← hc]
      exact hx

/-! ### Links -/

/-- C7, at a mailto anchor: the sanitiser lets the anchor through (the policy
allows the scheme `mailto`), the pattern asks for `http://` or `https://`, and
the anchor comes out of `textCleanup` with its markup. Anchors with an http or
https URL are rewritten, also when one follows the other at once. -/
theorem rewriteLinks_keeps_mailto :
    rewriteLinks "<a href=\"mailto:a@b.c\">mail</a>" = "<a href=\"mailto:a@b.c\">mail</a>" ∧
    rewriteLinks "<a href=\"https://x.com\">click</a>" = "https://x.com - click" ∧
    rewriteLinks "<a href=\"https://a.com\">x</a><a href=\"http://b.com\">y</a>"
      = "https://a.com - xhttp://b.com - y" := by
  decide

end BirdActivity
